import Mathlib

/-!
Verification development for the freud environment-matching and clustering
engine (`src/cpp/order/MatchEnv.h`, `src/cpp/order/LocalWlNear.cc`,
`src/cpp/localql/LocalQl.cc`).

The header `MatchEnv.h` carries the full `Environment` entity (constructor and
`addVec`) and the inline accessors (`getClusters`, `getEnvironment`,
`getNumClusters`) in source; the bodies of `EnvDisjointSet::find`,
`EnvDisjointSet::merge`, `MatchEnv::buildEnv`, `MatchEnv::isSimilar` and
`MatchEnv::populateEnv` live in a translation unit that is not part of the
sources, so those operations are modelled from the specification (each such
definition says so in its doc comment).

Float coordinates are embedded as integers: every property at stake
(squared-distance comparisons, threshold feasibility, minimum-cost selection)
is a statement of ordered-ring arithmetic, and integer inputs keep every
definition executable and every concrete instance decidable.
-/

/-- The 3-d vector type of the sources (`vec3<float>`), with integer
coordinates in the shallow embedding. -/
structure vec3 where
  x : Int
  y : Int
  z : Int
deriving DecidableEq

/-- Squared Euclidean distance between two vectors. -/
def distSq (a b : vec3) : Int :=
  (a.x - b.x) ^ 2 + (a.y - b.y) ^ 2 + (a.z - b.z) ^ 2

/-- Squared length of a vector. -/
def normSq (a : vec3) : Int := a.x ^ 2 + a.y ^ 2 + a.z ^ 2

/-- `struct Environment` of `MatchEnv.h`: the per-particle environment with
its vectors, slot labels (`vec_ind`), ghost flag and capacity bookkeeping. -/
structure Environment where
  env_ind : Nat
  vecs : List vec3
  ghost : Bool
  num_vecs : Nat
  num_neigh : Nat
  vec_ind : List Nat
deriving DecidableEq

/-- `Environment::Environment(unsigned int n)`: empty vector lists,
`num_neigh = n`, `env_ind = 0`, `num_vecs = 0`, `ghost = false`. -/
def mkEnvironment (n : Nat) : Environment :=
  { env_ind := 0, vecs := [], ghost := false, num_vecs := 0, num_neigh := n, vec_ind := [] }

/-- `Environment::addVec` of `MatchEnv.h`: throws when `num_vecs > num_neigh`
at call time, otherwise appends the vector, appends the running count as the
new slot label, and increments the count.  The source guard is
`num_vecs > num_neigh`, checked before the push. -/
def Environment.addVec (e : Environment) (v : vec3) : Except String Environment :=
  if e.num_neigh < e.num_vecs then
    .error "added too many vectors to the environment"
  else
    .ok { e with
          vecs := e.vecs ++ [v]
          vec_ind := e.vec_ind ++ [e.num_vecs]
          num_vecs := e.num_vecs + 1 }

/-- `LocalQl::LocalQl` argument validation (`src/cpp/localql/LocalQl.cc`,
lines 17-29): rejects `rmax < 0` (message: rmax must be positive), `l < 2`,
and odd `l`, in that order. -/
def localQlCtorCheck (rmax : Int) (l : Nat) : Except String Unit :=
  if rmax < 0 then .error "rmax must be positive!"
  else if l < 2 then .error "l must be two or greater (and even)!"
  else if l % 2 = 1 then .error "This method requires even values of l!"
  else .ok ()

/-- `LocalWlNear::LocalWlNear` argument validation
(`src/cpp/order/LocalWlNear.cc`, lines 16-30): the same three checks as
`LocalQl`, with the same `rmax < 0` guard. -/
def localWlNearCtorCheck (rmax : Int) (l : Nat) : Except String Unit :=
  if rmax < 0 then .error "rmax must be positive!"
  else if l < 2 then .error "l must be two or greater (and even)!"
  else if l % 2 = 1 then .error "This method requires even values of l!"
  else .ok ()

/-- Association-list lookup, the embedding of `std::map::find` /
`boost::bimap` left-lookup used by `MatchEnv.h` (`m_env.find(i)`) and by the
merge correspondence. -/
def alookup {β : Type} : List (Nat × β) → Nat → Option β
  | [], _ => none
  | (k, v) :: rest, i => if k = i then some v else alookup rest i

/-- `MatchEnv::getEnvironment` of `MatchEnv.h` (lines 140-146): looks `i` up
in the cluster-id-to-vectors dictionary `m_env` and dereferences the
resulting iterator with no `end()` comparison.  The embedding returns the
looked-up value when the key is recorded; the `none` case stands for the
source's dereference of the `end()` iterator (undefined behavior in C++). -/
def getEnvironment (m_env : List (Nat × List vec3)) (i : Nat) : Option (List vec3) :=
  alookup m_env i

/-- The invariant claimed for `Environment` (spec §3): vector list and slot
list have equal length, that length is bounded by the capacity `num_neigh`,
and the slot labels are pairwise distinct values below `num_neigh`. -/
def envInvariant (e : Environment) : Prop :=
  e.vecs.length = e.vec_ind.length ∧ e.vecs.length ≤ e.num_neigh ∧
  e.vec_ind.Nodup ∧ ∀ s ∈ e.vec_ind, s < e.num_neigh

/-- C2: the capacity guard of `Environment::addVec` is off by one.  With
`maxNeighbors = 1`, the second `addVec` call — the one that brings the stored
count above the capacity — succeeds and stores the vector (the environment
then holds 2 vectors), and only the third call raises.  The claim says the
second call must raise without adding and the environment can never hold more
than `maxNeighbors` vectors. -/
theorem addVec_capacity_off_by_one_C2 :
    ((mkEnvironment 1).addVec ⟨0, 0, 0⟩).bind (fun e => e.addVec ⟨0, 0, 0⟩) =
      .ok { env_ind := 0, vecs := [⟨0, 0, 0⟩, ⟨0, 0, 0⟩], ghost := false,
            num_vecs := 2, num_neigh := 1, vec_ind := [0, 1] } ∧
    ({ env_ind := 0, vecs := [⟨0, 0, 0⟩, ⟨0, 0, 0⟩], ghost := false,
       num_vecs := 2, num_neigh := 1, vec_ind := [0, 1] : Environment}).addVec ⟨0, 0, 0⟩ =
      .error "added too many vectors to the environment" :=
  ⟨rfl, rfl⟩

/-- C5: the environment invariant of spec §3 is violated by code reachable
through `Environment::addVec` alone: with capacity 1, two successful `addVec`
calls produce an environment of length 2 > 1 whose slot list `[0, 1]`
contains the out-of-range label 1. -/
theorem envInvariant_violated_C5 :
    ((mkEnvironment 1).addVec ⟨0, 0, 0⟩).bind (fun e => e.addVec ⟨0, 0, 0⟩) =
      .ok { env_ind := 0, vecs := [⟨0, 0, 0⟩, ⟨0, 0, 0⟩], ghost := false,
            num_vecs := 2, num_neigh := 1, vec_ind := [0, 1] } ∧
    ¬ envInvariant { env_ind := 0, vecs := [⟨0, 0, 0⟩, ⟨0, 0, 0⟩], ghost := false,
                     num_vecs := 2, num_neigh := 1, vec_ind := [0, 1] } := by
  refine ⟨rfl, ?_⟩
  intro h
  exact absurd h.2.1 (by decide)

/-- C9: both constructors guard `rmax` with a strict `rmax < 0` comparison
while their own error message demands a positive value, so `rmax = 0` — a
non-positive cutoff the claim says must be rejected — is accepted, and only
strictly negative values raise. -/
theorem rmax_zero_accepted_C9 :
    localQlCtorCheck 0 2 = .ok () ∧ localWlNearCtorCheck 0 2 = .ok () ∧
    localQlCtorCheck (-1) 2 = .error "rmax must be positive!" ∧
    localWlNearCtorCheck (-1) 2 = .error "rmax must be positive!" :=
  ⟨rfl, rfl, rfl, rfl⟩

/-- C10: `MatchEnv::getEnvironment` is defined exactly on the recorded
cluster ids: the lookup into `m_env` yields a value iff `i` is one of the
recorded keys; for any other `i` it yields `none`, the embedding of the
source's unchecked dereference of the `end()` iterator. -/
theorem getEnvironment_requires_recorded_id_C10 (m_env : List (Nat × List vec3)) (i : Nat) :
    (getEnvironment m_env i).isSome = true ↔ i ∈ m_env.map Prod.fst := by
  induction m_env with
  | nil => simp [getEnvironment, alookup]
  | cons p rest ih =>
    obtain ⟨k, v⟩ := p
    by_cases h : k = i
    · subst h
      simp [getEnvironment, alookup]
    · simpa [getEnvironment, alookup, h, Ne.symm h] using ih

/-- Sequential insertion of neighbor vectors through `Environment::addVec`,
propagating the first error.  This is the loop of `MatchEnv::buildEnv`. -/
def addVecs (e : Environment) : List vec3 → Except String Environment
  | [] => .ok e
  | v :: vs =>
    match e.addVec v with
    | .error msg => .error msg
    | .ok e' => addVecs e' vs

/-- Modelled from the spec: the hard-radius filter of `MatchEnv::buildEnv`
(spec §4.1), whose body is absent from the sources.  Vectors whose squared
length exceeds the squared hard radius are excluded; with no hard radius all
input vectors are kept. -/
def keptVectors (neighbors : List vec3) (hardRadiusSq : Option Int) : List vec3 :=
  match hardRadiusSq with
  | some r2 => neighbors.filter (fun v => decide (normSq v ≤ r2))
  | none => neighbors

/-- Modelled from the spec: `MatchEnv::buildEnv` (spec §4.1), whose body is
absent from the sources (only declared in `MatchEnv.h`).  It takes the
ordered neighbor vectors of one particle, drops the ones outside the optional
hard radius, and feeds the survivors in order to `Environment::addVec`
(which is in source) on a fresh environment carrying the given index. -/
def buildEnv (num_neigh env_index : Nat) (neighbors : List vec3)
    (hardRadiusSq : Option Int) : Except String Environment :=
  addVecs { mkEnvironment num_neigh with env_ind := env_index }
    (keptVectors neighbors hardRadiusSq)

theorem addVecs_ok (vs : List vec3) (e : Environment)
    (hfit : e.num_vecs + vs.length ≤ e.num_neigh + 1) :
    addVecs e vs =
      .ok { e with vecs := e.vecs ++ vs,
                   vec_ind := e.vec_ind ++ List.range' e.num_vecs vs.length,
                   num_vecs := e.num_vecs + vs.length } := by
  induction vs generalizing e with
  | nil =>
    simp [addVecs]
  | cons v vs ih =>
    have hok : ¬ e.num_neigh < e.num_vecs := by
      simp only [List.length_cons] at hfit
      omega
    have h1 : addVecs e (v :: vs) =
        addVecs { e with vecs := e.vecs ++ [v], vec_ind := e.vec_ind ++ [e.num_vecs], num_vecs := e.num_vecs + 1 } vs := by
      rw [addVecs]
      simp [Environment.addVec, hok]
    have hlen : (e.num_vecs + 1) + vs.length ≤ e.num_neigh + 1 := by
      simp only [List.length_cons] at hfit
      omega
    rw [h1, ih _ hlen]
    have harith : e.num_vecs + 1 + vs.length = e.num_vecs + (vs.length + 1) := by omega
    simp only [List.length_cons, List.append_assoc, List.singleton_append, List.range'_succ,
      harith]

/-- C8: for at most `maxNeighbors` input vectors, `buildEnv` succeeds and
returns a fresh environment whose slot labels are exactly `0..m-1` in input
order (`m` the number of vectors kept by the hard-radius filter), whose ghost
flag is `false`, and whose vectors are exactly the input vectors whose
squared length does not exceed the squared hard radius. -/
theorem buildEnv_spec_C8 (num_neigh env_index : Nat) (neighbors : List vec3)
    (hardRadiusSq : Option Int) (hk : neighbors.length ≤ num_neigh) :
    buildEnv num_neigh env_index neighbors hardRadiusSq =
      .ok { env_ind := env_index,
            vecs := keptVectors neighbors hardRadiusSq,
            ghost := false,
            num_vecs := (keptVectors neighbors hardRadiusSq).length,
            num_neigh := num_neigh,
            vec_ind := List.range (keptVectors neighbors hardRadiusSq).length } ∧
    (∀ r2, hardRadiusSq = some r2 → ∀ v ∈ neighbors,
      (v ∈ keptVectors neighbors hardRadiusSq ↔ ¬ r2 < normSq v)) := by
  constructor
  · have hkept : (keptVectors neighbors hardRadiusSq).length ≤ neighbors.length := by
      cases hardRadiusSq with
      | none => exact Nat.le_refl _
      | some r2 => exact List.length_filter_le _ _
    have hfit : ({ mkEnvironment num_neigh with env_ind := env_index } : Environment).num_vecs +
        (keptVectors neighbors hardRadiusSq).length ≤
        ({ mkEnvironment num_neigh with env_ind := env_index } : Environment).num_neigh + 1 := by
      show 0 + (keptVectors neighbors hardRadiusSq).length ≤ num_neigh + 1
      omega
    rw [buildEnv, addVecs_ok _ _ hfit]
    simp [mkEnvironment, List.range_eq_range']
  · intro r2 hr2 v hv
    subst hr2
    simp [keptVectors, List.mem_filter, hv]

/-- Witness for C8 at a concrete input: capacity 2, neighbors
`[(1,0,0), (3,0,0)]`, squared hard radius 2; the second vector (squared
length 9) is excluded and the result carries slots `[0]`. -/
theorem buildEnv_spec_C8_witness :
    buildEnv 2 0 [⟨1, 0, 0⟩, ⟨3, 0, 0⟩] (some 2) =
      .ok { env_ind := 0,
            vecs := keptVectors [⟨1, 0, 0⟩, ⟨3, 0, 0⟩] (some 2),
            ghost := false,
            num_vecs := (keptVectors [⟨1, 0, 0⟩, ⟨3, 0, 0⟩] (some 2)).length,
            num_neigh := 2,
            vec_ind := List.range (keptVectors [⟨1, 0, 0⟩, ⟨3, 0, 0⟩] (some 2)).length } ∧
    (∀ r2, (some 2 : Option Int) = some r2 → ∀ v ∈ [(⟨1, 0, 0⟩ : vec3), ⟨3, 0, 0⟩],
      (v ∈ keptVectors [⟨1, 0, 0⟩, ⟨3, 0, 0⟩] (some 2) ↔ ¬ r2 < normSq v)) :=
  buildEnv_spec_C8 2 0 [⟨1, 0, 0⟩, ⟨3, 0, 0⟩] (some 2) (by decide)

/-- All injective selections of `k` elements from the candidate list `ys`,
each selection listed in selection order.  Used to enumerate the ways of
assigning distinct right-hand indices to the left-hand indices of a
matching. -/
def injSel : Nat → List Nat → List (List Nat)
  | 0, _ => [[]]
  | k + 1, ys => ys.flatMap fun y => (injSel k (ys.filter (fun z => z ≠ y))).map (fun J => y :: J)

/-- Modelled from the spec: the candidate bijections of `MatchEnv::isSimilar`
(spec §4.2).  A candidate matching between environments of sizes `m` and `n`
is a list of index pairs, sorted by left index, pairing `min m n` distinct
left indices with `min m n` distinct right indices. -/
def matchings (m n : Nat) : List (List (Nat × Nat)) :=
  (List.sublistsLen (min m n) (List.range m)).flatMap fun S =>
    (injSel (min m n) (List.range n)).map fun J => S.zip J

/-- Squared distance between the vectors selected by an index pair (left
index into `v1`, right index into `v2`). -/
def pairCost (v1 v2 : List vec3) (p : Nat × Nat) : Int :=
  distSq (v1.getD p.1 ⟨0, 0, 0⟩) (v2.getD p.2 ⟨0, 0, 0⟩)

/-- Total squared distance of a candidate matching. -/
def totCost (v1 v2 : List vec3) (L : List (Nat × Nat)) : Int :=
  (L.map (pairCost v1 v2)).sum

/-- Per-pair threshold feasibility, Bool-valued (spec §4.2: pairs with
squared distance above `thresholdSquared` are discarded; the bound is
inclusive). -/
def feasibleB (v1 v2 : List vec3) (t : Int) (L : List (Nat × Nat)) : Bool :=
  L.all fun p => pairCost v1 v2 p ≤ t

/-- Per-pair threshold feasibility as a proposition. -/
def Feasible (v1 v2 : List vec3) (t : Int) (L : List (Nat × Nat)) : Prop :=
  ∀ p ∈ L, pairCost v1 v2 p ≤ t

/-- Lexicographic comparison of pair lists: at the first position where two
candidate matchings differ, the one with the lower left index, then the lower
right index, comes first.  This is the tie-break of spec §4.2. -/
def pairLE : List (Nat × Nat) → List (Nat × Nat) → Bool
  | [], _ => true
  | _ :: _, [] => false
  | a :: as, b :: bs =>
    if a.1 < b.1 then true
    else if b.1 < a.1 then false
    else if a.2 < b.2 then true
    else if b.2 < a.2 then false
    else pairLE as bs

/-- Selection order on candidate matchings: lower total cost first, ties
broken by `pairLE`. -/
def keyLE (v1 v2 : List vec3) (a b : List (Nat × Nat)) : Bool :=
  decide (totCost v1 v2 a < totCost v1 v2 b) ||
    (decide (totCost v1 v2 a = totCost v1 v2 b) && pairLE a b)

/-- First minimum of a candidate list under `keyLE`. -/
def chooseBest (v1 v2 : List vec3) : List (List (Nat × Nat)) → Option (List (Nat × Nat))
  | [] => none
  | x :: xs => some (xs.foldl (fun acc y => if keyLE v1 v2 acc y then acc else y) x)

/-- Modelled from the spec: the optimal feasible matching underlying
`MatchEnv::isSimilar` (spec §4.2), whose body is absent from the sources.
All candidate bijections of size `min (|e1|, |e2|)` are enumerated, the ones
with a pair above the squared threshold are discarded, and the remaining one
of minimum total squared distance is selected, ties broken by lowest left
index then lowest right index (`keyLE`).  `none` when no candidate is
feasible. -/
def bestMatching (e1 e2 : Environment) (t : Int) : Option (List (Nat × Nat)) :=
  chooseBest e1.vecs e2.vecs
    ((matchings e1.vecs.length e2.vecs.length).filter (feasibleB e1.vecs e2.vecs t))

/-- Modelled from the spec: `MatchEnv::isSimilar` (spec §4.2).  On success
the optimal matching is reported as a slot-label correspondence through
`vec_ind`; on failure the empty mapping is returned. -/
def isSimilar (e1 e2 : Environment) (t : Int) : List (Nat × Nat) :=
  match bestMatching e1 e2 t with
  | some L => L.map fun p => (e1.vec_ind.getD p.1 0, e2.vec_ind.getD p.2 0)
  | none => []

/-- The declarative reading of a candidate matching (spec §4.2): a bijection
between `min m n` of the left indices and `min m n` of the right indices,
recorded as a pair list sorted by strictly increasing left index with
pairwise distinct right indices. -/
def IsMatching (m n : Nat) (L : List (Nat × Nat)) : Prop :=
  L.length = min m n ∧ (L.map Prod.fst).Pairwise (· < ·) ∧
    (∀ p ∈ L, p.1 < m ∧ p.2 < n) ∧ (L.map Prod.snd).Nodup

theorem zip_fst_snd {α β : Type} (l : List (α × β)) :
    (l.map Prod.fst).zip (l.map Prod.snd) = l := by
  induction l with
  | nil => rfl
  | cons p l ih => simp [ih]

theorem mem_injSel : ∀ (k : Nat) (ys J : List Nat),
    J ∈ injSel k ys ↔ (J.length = k ∧ J.Nodup ∧ ∀ j ∈ J, j ∈ ys) := by
  intro k
  induction k with
  | zero =>
    intro ys J
    simp only [injSel, List.mem_singleton]
    constructor
    · rintro rfl
      exact ⟨rfl, List.nodup_nil, by simp⟩
    · rintro ⟨hlen, -, -⟩
      exact List.length_eq_zero.mp hlen
  | succ k ih =>
    intro ys J
    simp only [injSel, List.mem_flatMap, List.mem_map]
    constructor
    · rintro ⟨y, hy, J', hJ', rfl⟩
      obtain ⟨hlen, hnd, hmem⟩ := (ih _ _).mp hJ'
      refine ⟨by simp [hlen], ?_, ?_⟩
      · refine List.nodup_cons.mpr ⟨fun hyJ => ?_, hnd⟩
        have := hmem y hyJ
        simp [List.mem_filter] at this
      · intro j hj
        rcases List.mem_cons.mp hj with h | h
        · exact h ▸ hy
        · exact (List.mem_filter.mp (hmem j h)).1
    · rintro ⟨hlen, hnd, hmem⟩
      cases J with
      | nil => simp at hlen
      | cons j J' =>
        obtain ⟨hjJ', hnd'⟩ := List.nodup_cons.mp hnd
        refine ⟨j, hmem j (by simp), J', (ih _ _).mpr ⟨by simpa using hlen, hnd', ?_⟩, rfl⟩
        intro x hx
        have hxj : x ≠ j := fun h => hjJ' (h ▸ hx)
        exact List.mem_filter.mpr ⟨hmem x (by simp [hx]), by simpa using hxj⟩

theorem pairwise_lt_sublist_range :
    ∀ (m : Nat) (S : List Nat), S.Pairwise (· < ·) → (∀ x ∈ S, x < m) →
      List.Sublist S (List.range m) := by
  intro m
  induction m with
  | zero =>
    intro S _ hb
    have : S = [] := by
      cases S with
      | nil => rfl
      | cons a t => exact absurd (hb a (by simp)) (Nat.not_lt_zero a)
    simp [this]
  | succ m ih =>
    intro S hp hb
    rw [List.range_succ_eq_map]
    cases S with
    | nil => exact List.nil_sublist _
    | cons a S' =>
      obtain ⟨hhead, htail⟩ := List.pairwise_cons.mp hp
      by_cases ha : a = 0
      · subst ha
        have hpos : ∀ x ∈ S', 1 ≤ x := fun x hx => hhead x hx
        have hS' : (S'.map (fun x => x - 1)).map Nat.succ = S' := by
          rw [List.map_map]
          have : ∀ x ∈ S', (Nat.succ ∘ fun y => y - 1) x = id x := by
            intro x hx
            have := hpos x hx
            simp [Function.comp]
            omega
          rw [List.map_congr_left this, List.map_id]
        have hsub : List.Sublist (S'.map (fun x => x - 1)) (List.range m) := by
          apply ih
          · rw [List.pairwise_map]
            refine htail.imp_of_mem ?_
            intro x y hx hy hxy
            have := hpos x hx
            omega
          · intro x hx
            obtain ⟨y, hy, rfl⟩ := List.mem_map.mp hx
            have h1 := hpos y hy
            have h2 := hb y (by simp [hy])
            omega
        have := (hsub.map Nat.succ)
        rw [hS'] at this
        exact List.Sublist.cons₂ 0 this
      · have hpos : ∀ x ∈ a :: S', 1 ≤ x := by
          intro x hx
          rcases List.mem_cons.mp hx with rfl | h
          · omega
          · have := hhead x h
            omega
        have hS : ((a :: S').map (fun x => x - 1)).map Nat.succ = a :: S' := by
          rw [List.map_map]
          have : ∀ x ∈ a :: S', (Nat.succ ∘ fun y => y - 1) x = id x := by
            intro x hx
            have := hpos x hx
            simp [Function.comp]
            omega
          rw [List.map_congr_left this, List.map_id]
        have hsub : List.Sublist ((a :: S').map (fun x => x - 1)) (List.range m) := by
          apply ih
          · rw [List.pairwise_map]
            refine hp.imp_of_mem ?_
            intro x y hx hy hxy
            have := hpos x hx
            omega
          · intro x hx
            obtain ⟨y, hy, rfl⟩ := List.mem_map.mp hx
            have h1 := hpos y hy
            have h2 := hb y hy
            omega
        have := hsub.map Nat.succ
        rw [hS] at this
        exact List.Sublist.cons 0 this

theorem mem_matchings {m n : Nat} {L : List (Nat × Nat)} :
    L ∈ matchings m n ↔ IsMatching m n L := by
  simp only [matchings, List.mem_flatMap, List.mem_map]
  constructor
  · rintro ⟨S, hS, J, hJ, rfl⟩
    obtain ⟨hSsub, hSlen⟩ := List.mem_sublistsLen.mp hS
    obtain ⟨hJlen, hJnd, hJmem⟩ := (mem_injSel _ _ _).mp hJ
    have hlen : S.length = J.length := by rw [hSlen, hJlen]
    have hfst : (S.zip J).map Prod.fst = S := List.map_fst_zip S J (le_of_eq hlen)
    have hsnd : (S.zip J).map Prod.snd = J := List.map_snd_zip S J (ge_of_eq hlen)
    refine ⟨?_, ?_, ?_, ?_⟩
    · rw [List.length_zip, hSlen, hJlen, Nat.min_self]
    · rw [hfst]
      exact (List.pairwise_lt_range m).sublist hSsub
    · intro p hp
      obtain ⟨h1, h2⟩ := List.of_mem_zip hp
      exact ⟨List.mem_range.mp (hSsub.subset h1), List.mem_range.mp (hJmem _ h2)⟩
    · rw [hsnd]
      exact hJnd
  · rintro ⟨hlen, hsort, hbound, hnd⟩
    refine ⟨L.map Prod.fst, ?_, L.map Prod.snd, ?_, zip_fst_snd L⟩
    · refine List.mem_sublistsLen.mpr ⟨?_, by simpa using hlen⟩
      refine pairwise_lt_sublist_range m _ hsort ?_
      intro x hx
      obtain ⟨p, hp, rfl⟩ := List.mem_map.mp hx
      exact (hbound p hp).1
    · refine (mem_injSel _ _ _).mpr ⟨by simpa using hlen, hnd, ?_⟩
      intro j hj
      obtain ⟨p, hp, rfl⟩ := List.mem_map.mp hj
      exact List.mem_range.mpr (hbound p hp).2

theorem pairLE_refl : ∀ (L : List (Nat × Nat)), pairLE L L = true := by
  intro L
  induction L with
  | nil => rfl
  | cons a as ih => simp [pairLE, ih]

theorem pairLE_total : ∀ (A B : List (Nat × Nat)), pairLE A B = true ∨ pairLE B A = true := by
  intro A
  induction A with
  | nil => intro B; left; rfl
  | cons a as ih =>
    intro B
    cases B with
    | nil => right; rfl
    | cons b bs =>
      simp only [pairLE]
      rcases ih bs with h | h <;> split_ifs <;> simp_all

theorem pairLE_trans : ∀ (A B C : List (Nat × Nat)),
    pairLE A B = true → pairLE B C = true → pairLE A C = true := by
  intro A
  induction A with
  | nil => intro B C _ _; rfl
  | cons a as ih =>
    intro B C h1 h2
    cases B with
    | nil => simp [pairLE] at h1
    | cons b bs =>
      cases C with
      | nil => simp [pairLE] at h2
      | cons c cs =>
        simp only [pairLE] at h1 h2 ⊢
        split_ifs at h1 h2 ⊢ <;>
          first
            | rfl
            | omega
            | exact ih bs cs h1 h2

theorem keyLE_refl (v1 v2 : List vec3) (L : List (Nat × Nat)) : keyLE v1 v2 L L = true := by
  simp [keyLE, pairLE_refl]

theorem keyLE_total (v1 v2 : List vec3) (A B : List (Nat × Nat)) :
    keyLE v1 v2 A B = true ∨ keyLE v1 v2 B A = true := by
  rcases lt_trichotomy (totCost v1 v2 A) (totCost v1 v2 B) with h | h | h
  · left; simp [keyLE, h]
  · rcases pairLE_total A B with hp | hp
    · left; simp [keyLE, h, hp]
    · right; simp [keyLE, h.symm, hp]
  · right; simp [keyLE, h]

theorem keyLE_trans (v1 v2 : List vec3) (A B C : List (Nat × Nat)) :
    keyLE v1 v2 A B = true → keyLE v1 v2 B C = true → keyLE v1 v2 A C = true := by
  intro h1 h2
  simp only [keyLE, Bool.or_eq_true, Bool.and_eq_true, decide_eq_true_eq] at h1 h2 ⊢
  rcases h1 with h1 | ⟨h1, h1p⟩ <;> rcases h2 with h2 | ⟨h2, h2p⟩
  · left; omega
  · left; omega
  · left; omega
  · right; exact ⟨by omega, pairLE_trans A B C h1p h2p⟩

theorem foldl_best_spec (v1 v2 : List vec3) :
    ∀ (xs : List (List (Nat × Nat))) (a : List (Nat × Nat)),
      ((xs.foldl (fun acc y => if keyLE v1 v2 acc y then acc else y) a) = a ∨
        (xs.foldl (fun acc y => if keyLE v1 v2 acc y then acc else y) a) ∈ xs) ∧
      keyLE v1 v2 (xs.foldl (fun acc y => if keyLE v1 v2 acc y then acc else y) a) a = true ∧
      ∀ y ∈ xs, keyLE v1 v2 (xs.foldl (fun acc y => if keyLE v1 v2 acc y then acc else y) a) y = true := by
  intro xs
  induction xs with
  | nil =>
    intro a
    exact ⟨Or.inl rfl, keyLE_refl v1 v2 a, by simp⟩
  | cons x xs ih =>
    intro a
    simp only [List.foldl_cons]
    by_cases hax : keyLE v1 v2 a x = true
    · rw [if_pos hax]
      obtain ⟨hmem, hacc, hall⟩ := ih a
      refine ⟨?_, hacc, ?_⟩
      · rcases hmem with h | h
        · exact Or.inl h
        · exact Or.inr (List.mem_cons_of_mem _ h)
      · intro y hy
        rcases List.mem_cons.mp hy with rfl | h
        · exact keyLE_trans v1 v2 _ a y hacc hax
        · exact hall y h
    · rw [if_neg hax]
      obtain ⟨hmem, hacc, hall⟩ := ih x
      have hxa : keyLE v1 v2 x a = true := by
        rcases keyLE_total v1 v2 a x with h | h
        · exact absurd h hax
        · exact h
      refine ⟨?_, keyLE_trans v1 v2 _ x a hacc hxa, ?_⟩
      · rcases hmem with h | h
        · refine Or.inr ?_
          rw [h]
          exact List.mem_cons_self x xs
        · exact Or.inr (List.mem_cons_of_mem _ h)
      · intro y hy
        rcases List.mem_cons.mp hy with rfl | h
        · exact hacc
        · exact hall y h

theorem chooseBest_none (v1 v2 : List vec3) (l : List (List (Nat × Nat))) :
    chooseBest v1 v2 l = none ↔ l = [] := by
  cases l with
  | nil => simp [chooseBest]
  | cons x xs => simp [chooseBest]

theorem chooseBest_mem (v1 v2 : List vec3) (l : List (List (Nat × Nat)))
    (b : List (Nat × Nat)) (h : chooseBest v1 v2 l = some b) : b ∈ l := by
  cases l with
  | nil => simp [chooseBest] at h
  | cons x xs =>
    simp only [chooseBest, Option.some.injEq] at h
    obtain ⟨hmem, -, -⟩ := foldl_best_spec v1 v2 xs x
    rw [h] at hmem
    rcases hmem with h' | h'
    · exact h' ▸ List.mem_cons_self x xs
    · exact List.mem_cons_of_mem _ h'

theorem chooseBest_min (v1 v2 : List vec3) (l : List (List (Nat × Nat)))
    (b : List (Nat × Nat)) (h : chooseBest v1 v2 l = some b) :
    ∀ y ∈ l, keyLE v1 v2 b y = true := by
  cases l with
  | nil => simp [chooseBest] at h
  | cons x xs =>
    simp only [chooseBest, Option.some.injEq] at h
    obtain ⟨-, hacc, hall⟩ := foldl_best_spec v1 v2 xs x
    intro y hy
    rcases List.mem_cons.mp hy with rfl | h'
    · exact h ▸ hacc
    · exact h ▸ hall y h'

/-- C1: `isSimilar` succeeds exactly when a bijection between `min (|e1|,
|e2|)` of the two environments' vectors with every matched pair within the
squared threshold (boundary inclusive) exists; on success the returned
correspondence is the feasible bijection of globally minimum total squared
distance, ties broken by lowest `e1` vector index then lowest `e2` vector
index, reported through the slot labels; otherwise the empty mapping is
returned. -/
theorem isSimilar_spec_C1 (e1 e2 : Environment) (t : Int) (_ht : 0 ≤ t) :
    ((bestMatching e1 e2 t = none) ↔
      ∀ M, IsMatching e1.vecs.length e2.vecs.length M → ¬ Feasible e1.vecs e2.vecs t M) ∧
    (∀ L, bestMatching e1 e2 t = some L →
      IsMatching e1.vecs.length e2.vecs.length L ∧ Feasible e1.vecs e2.vecs t L ∧
      (∀ M, IsMatching e1.vecs.length e2.vecs.length M → Feasible e1.vecs e2.vecs t M →
        totCost e1.vecs e2.vecs L < totCost e1.vecs e2.vecs M ∨
          (totCost e1.vecs e2.vecs L = totCost e1.vecs e2.vecs M ∧ pairLE L M = true)) ∧
      isSimilar e1 e2 t = L.map fun p => (e1.vec_ind.getD p.1 0, e2.vec_ind.getD p.2 0)) ∧
    (bestMatching e1 e2 t = none → isSimilar e1 e2 t = []) := by
  have hfeas : ∀ M, feasibleB e1.vecs e2.vecs t M = true ↔ Feasible e1.vecs e2.vecs t M := by
    intro M
    simp [feasibleB, Feasible, List.all_eq_true]
  refine ⟨?_, ?_, ?_⟩
  · rw [bestMatching, chooseBest_none, List.filter_eq_nil_iff]
    constructor
    · intro h M hM hF
      exact h M (mem_matchings.mpr hM) ((hfeas M).mpr hF)
    · intro h M hM hF
      exact h M (mem_matchings.mp hM) ((hfeas M).mp hF)
  · intro L hL
    have hmem := chooseBest_mem _ _ _ _ hL
    obtain ⟨hmatch, hfeasL⟩ := List.mem_filter.mp hmem
    refine ⟨mem_matchings.mp hmatch, (hfeas L).mp hfeasL, ?_, ?_⟩
    · intro M hM hF
      have hMF : M ∈ (matchings e1.vecs.length e2.vecs.length).filter
          (feasibleB e1.vecs e2.vecs t) :=
        List.mem_filter.mpr ⟨mem_matchings.mpr hM, (hfeas M).mpr hF⟩
      have := chooseBest_min _ _ _ _ hL M hMF
      simpa [keyLE, Bool.or_eq_true, Bool.and_eq_true, decide_eq_true_eq] using this
    · rw [isSimilar, hL]
  · intro h
    rw [isSimilar, h]

/-- Witness for C1 at a concrete input: two singleton environments holding
the same vector, threshold 0. -/
theorem isSimilar_spec_C1_witness :
    ((bestMatching (mkEnvironment 1) (mkEnvironment 1) 0 = none) ↔
      ∀ M, IsMatching (mkEnvironment 1).vecs.length (mkEnvironment 1).vecs.length M →
        ¬ Feasible (mkEnvironment 1).vecs (mkEnvironment 1).vecs 0 M) ∧
    (∀ L, bestMatching (mkEnvironment 1) (mkEnvironment 1) 0 = some L →
      IsMatching (mkEnvironment 1).vecs.length (mkEnvironment 1).vecs.length L ∧
      Feasible (mkEnvironment 1).vecs (mkEnvironment 1).vecs 0 L ∧
      (∀ M, IsMatching (mkEnvironment 1).vecs.length (mkEnvironment 1).vecs.length M →
        Feasible (mkEnvironment 1).vecs (mkEnvironment 1).vecs 0 M →
        totCost (mkEnvironment 1).vecs (mkEnvironment 1).vecs L <
            totCost (mkEnvironment 1).vecs (mkEnvironment 1).vecs M ∨
          (totCost (mkEnvironment 1).vecs (mkEnvironment 1).vecs L =
              totCost (mkEnvironment 1).vecs (mkEnvironment 1).vecs M ∧ pairLE L M = true)) ∧
      isSimilar (mkEnvironment 1) (mkEnvironment 1) 0 =
        L.map fun p => ((mkEnvironment 1).vec_ind.getD p.1 0,
          (mkEnvironment 1).vec_ind.getD p.2 0)) ∧
    (bestMatching (mkEnvironment 1) (mkEnvironment 1) 0 = none →
      isSimilar (mkEnvironment 1) (mkEnvironment 1) 0 = []) :=
  isSimilar_spec_C1 (mkEnvironment 1) (mkEnvironment 1) 0 (by decide)

theorem distSq_symm (a b : vec3) : distSq a b = distSq b a := by
  simp only [distSq]
  ring

/-- The inverse of a correspondence, re-sorted by its (new) left index. -/
def swapInv (L : List (Nat × Nat)) : List (Nat × Nat) :=
  List.insertionSort (fun p q => p.1 ≤ q.1) (L.map Prod.swap)

theorem swapInv_perm (L : List (Nat × Nat)) : List.Perm (swapInv L) (L.map Prod.swap) :=
  List.perm_insertionSort _ _

theorem swapInv_sorted (L : List (Nat × Nat)) :
    (swapInv L).Pairwise (fun p q : Nat × Nat => p.1 ≤ q.1) := by
  haveI : IsTotal (Nat × Nat) (fun p q => p.1 ≤ q.1) := ⟨fun a b => Nat.le_total a.1 b.1⟩
  haveI : IsTrans (Nat × Nat) (fun p q => p.1 ≤ q.1) := ⟨fun _ _ _ h1 h2 => le_trans h1 h2⟩
  exact List.sorted_insertionSort _ _

theorem pairwise_fst_lt_of_le_of_nodup {L : List (Nat × Nat)}
    (hle : L.Pairwise (fun p q : Nat × Nat => p.1 ≤ q.1))
    (hnd : (L.map Prod.fst).Nodup) :
    (L.map Prod.fst).Pairwise (· < ·) := by
  rw [List.pairwise_map]
  have hne : L.Pairwise (fun p q : Nat × Nat => p.1 ≠ q.1) := by
    rw [List.Nodup, List.pairwise_map] at hnd
    exact hnd
  exact (hle.and hne).imp fun h => lt_of_le_of_ne h.1 h.2

theorem isMatching_swapInv {m n : Nat} {L : List (Nat × Nat)} (h : IsMatching m n L) :
    IsMatching n m (swapInv L) := by
  obtain ⟨hlen, hsort, hbound, hnd⟩ := h
  have hperm := swapInv_perm L
  have hmemswap : ∀ p, p ∈ swapInv L ↔ p ∈ L.map Prod.swap := fun p => hperm.mem_iff
  have hfst : List.Perm ((swapInv L).map Prod.fst) (L.map Prod.snd) := by
    have := hperm.map Prod.fst
    rwa [List.map_map, show (Prod.fst ∘ Prod.swap : Nat × Nat → Nat) = Prod.snd from rfl] at this
  have hsnd : List.Perm ((swapInv L).map Prod.snd) (L.map Prod.fst) := by
    have := hperm.map Prod.snd
    rwa [List.map_map, show (Prod.snd ∘ Prod.swap : Nat × Nat → Nat) = Prod.fst from rfl] at this
  refine ⟨?_, ?_, ?_, ?_⟩
  · rw [hperm.length_eq, List.length_map, hlen, Nat.min_comm]
  · refine pairwise_fst_lt_of_le_of_nodup (swapInv_sorted L) ?_
    rw [hfst.nodup_iff]
    exact hnd
  · intro p hp
    obtain ⟨q, hq, rfl⟩ := List.mem_map.mp ((hmemswap p).mp hp)
    exact ⟨(hbound q hq).2, (hbound q hq).1⟩
  · rw [hsnd.nodup_iff]
    exact hsort.nodup

theorem pairCost_swap (v1 v2 : List vec3) (p : Nat × Nat) :
    pairCost v2 v1 p.swap = pairCost v1 v2 p := by
  simp [pairCost, Prod.swap, distSq_symm]

theorem feasible_swapInv {v1 v2 : List vec3} {t : Int} {L : List (Nat × Nat)}
    (h : Feasible v1 v2 t L) : Feasible v2 v1 t (swapInv L) := by
  intro p hp
  obtain ⟨q, hq, rfl⟩ := List.mem_map.mp ((swapInv_perm L).mem_iff.mp hp)
  rw [pairCost_swap]
  exact h q hq

theorem totCost_swapInv (v1 v2 : List vec3) (L : List (Nat × Nat)) :
    totCost v2 v1 (swapInv L) = totCost v1 v2 L := by
  have h1 : totCost v2 v1 (swapInv L) = totCost v2 v1 (L.map Prod.swap) :=
    ((swapInv_perm L).map (pairCost v2 v1)).sum_eq
  rw [h1, totCost, List.map_map, totCost]
  congr 1
  exact List.map_congr_left fun p _ => pairCost_swap v1 v2 p

theorem sorted_matching_unique {m n : Nat} {L M : List (Nat × Nat)}
    (hL : IsMatching m n L) (hM : IsMatching m n M) (h : List.Perm L M) : L = M := by
  haveI : IsAntisymm (Nat × Nat) (fun p q : Nat × Nat => p.1 < q.1) :=
    ⟨fun a b h1 h2 => absurd h2 (by omega)⟩
  have hs1 : List.Sorted (fun p q : Nat × Nat => p.1 < q.1) L := by
    have := hL.2.1
    rwa [List.pairwise_map] at this
  have hs2 : List.Sorted (fun p q : Nat × Nat => p.1 < q.1) M := by
    have := hM.2.1
    rwa [List.pairwise_map] at this
  exact List.eq_of_perm_of_sorted h hs1 hs2

theorem swapInv_swapInv {m n : Nat} {L : List (Nat × Nat)} (h : IsMatching m n L) :
    swapInv (swapInv L) = L := by
  have hperm : List.Perm (swapInv (swapInv L)) L := by
    have h1 := swapInv_perm (swapInv L)
    have h2 := (swapInv_perm L).map Prod.swap
    rw [List.map_map, show (Prod.swap ∘ Prod.swap : Nat × Nat → Nat × Nat) = id from rfl,
      List.map_id] at h2
    exact h1.trans h2
  exact sorted_matching_unique (isMatching_swapInv (isMatching_swapInv h)) h hperm

theorem feasibleB_iff (v1 v2 : List vec3) (t : Int) (M : List (Nat × Nat)) :
    feasibleB v1 v2 t M = true ↔ Feasible v1 v2 t M := by
  simp [feasibleB, Feasible, List.all_eq_true]

theorem keyLE_cost_le {v1 v2 : List vec3} {A B : List (Nat × Nat)}
    (h : keyLE v1 v2 A B = true) : totCost v1 v2 A ≤ totCost v1 v2 B := by
  simp only [keyLE, Bool.or_eq_true, Bool.and_eq_true, decide_eq_true_eq] at h
  rcases h with h | ⟨h, -⟩
  · exact le_of_lt h
  · exact le_of_eq h

theorem bestMatching_props (e1 e2 : Environment) (t : Int) (L : List (Nat × Nat))
    (h : bestMatching e1 e2 t = some L) :
    IsMatching e1.vecs.length e2.vecs.length L ∧ Feasible e1.vecs e2.vecs t L ∧
    ∀ M, IsMatching e1.vecs.length e2.vecs.length M → Feasible e1.vecs e2.vecs t M →
      keyLE e1.vecs e2.vecs L M = true := by
  have hmem := chooseBest_mem _ _ _ _ h
  obtain ⟨hmatch, hfeasL⟩ := List.mem_filter.mp hmem
  refine ⟨mem_matchings.mp hmatch, (feasibleB_iff _ _ _ _).mp hfeasL, ?_⟩
  intro M hM hF
  exact chooseBest_min _ _ _ _ h M
    (List.mem_filter.mpr ⟨mem_matchings.mpr hM, (feasibleB_iff _ _ _ _).mpr hF⟩)

theorem bestMatching_isSome_iff (e1 e2 : Environment) (t : Int) :
    (bestMatching e1 e2 t).isSome = true ↔
      ∃ M, IsMatching e1.vecs.length e2.vecs.length M ∧ Feasible e1.vecs e2.vecs t M := by
  rw [Option.isSome_iff_ne_none]
  constructor
  · intro h
    have hne : ¬ ((matchings e1.vecs.length e2.vecs.length).filter
        (feasibleB e1.vecs e2.vecs t) = []) := by
      intro he
      exact h (by rw [bestMatching, chooseBest_none]; exact he)
    rw [List.filter_eq_nil_iff] at hne
    push_neg at hne
    obtain ⟨M, hmem, hfeasB⟩ := hne
    exact ⟨M, mem_matchings.mp hmem, (feasibleB_iff _ _ _ _).mp (by simpa using hfeasB)⟩
  · rintro ⟨M, hM, hF⟩ hnone
    rw [bestMatching, chooseBest_none] at hnone
    rw [List.filter_eq_nil_iff] at hnone
    exact hnone M (mem_matchings.mpr hM)
      (by simp [(feasibleB_iff e1.vecs e2.vecs t M).mpr hF])

theorem getD_range {n i : Nat} (h : i < n) : (List.range n).getD i 0 = i := by
  simp [List.getD, List.getElem?_range h]

theorem slotted_id {m n : Nat} (L : List (Nat × Nat)) (h : IsMatching m n L) :
    L.map (fun p => ((List.range m).getD p.1 0, (List.range n).getD p.2 0)) = L := by
  have hcong : ∀ p ∈ L,
      (fun p : Nat × Nat => ((List.range m).getD p.1 0, (List.range n).getD p.2 0)) p =
        id p := by
    intro p hp
    obtain ⟨hp1, hp2⟩ := h.2.2.1 p hp
    simp [List.getD, List.getElem?_range hp1, List.getElem?_range hp2]
  rw [List.map_congr_left hcong, List.map_id]

/-- The two concrete environments of the C7 counterexample (slot labels are
the construction-time `0..len-1`). -/
def e1cex : Environment :=
  ⟨0, [⟨0, 0, 0⟩, ⟨2, 0, 0⟩], false, 2, 3, [0, 1]⟩

/-- Second environment of the C7 counterexample. -/
def e2cex : Environment :=
  ⟨1, [⟨2, 1, 1⟩, ⟨0, 1, 1⟩, ⟨1, 0, 0⟩], false, 3, 3, [0, 1, 2]⟩

/-- C7 counterexample: with `e1cex`, `e2cex` and squared threshold 2, both
directions succeed but the two returned correspondences are not mutually
inverse: the deterministic tie-break (lowest left index, then lowest right
index) selects `{0↦1, 1↦2}` in one direction and `{0↦1, 2↦0}` in the other,
because the two directions break the cost tie between different optimal
matchings. -/
theorem isSimilar_not_mutually_inverse_C7 :
    isSimilar e1cex e2cex 2 = [(0, 1), (1, 2)] ∧
    isSimilar e2cex e1cex 2 = [(0, 1), (2, 0)] ∧
    ((1, 2) ∈ isSimilar e1cex e2cex 2) ∧ ¬ ((2, 1) ∈ isSimilar e2cex e1cex 2) := by
  decide

/-- C7 (amended): `isSimilar (e1, e2, t)` succeeds iff `isSimilar (e2, e1,
t)` succeeds, and the two returned correspondences have equal total squared
distance; they are mutually inverse whenever the optimal feasible matching
is unique (unambiguous cost minimum), but not in general (ties are broken
asymmetrically).  Environments carry their construction-time slot labels
`0..len-1`. -/
theorem isSimilar_symm_C7 (e1 e2 : Environment) (t : Int)
    (h1 : e1.vec_ind = List.range e1.vecs.length)
    (h2 : e2.vec_ind = List.range e2.vecs.length) :
    ((bestMatching e1 e2 t).isSome = true ↔ (bestMatching e2 e1 t).isSome = true) ∧
    (∀ L M, bestMatching e1 e2 t = some L → bestMatching e2 e1 t = some M →
      totCost e1.vecs e2.vecs L = totCost e2.vecs e1.vecs M ∧
      ((∀ M2, IsMatching e1.vecs.length e2.vecs.length M2 →
          Feasible e1.vecs e2.vecs t M2 →
          totCost e1.vecs e2.vecs M2 = totCost e1.vecs e2.vecs L → M2 = L) →
        ∀ i j, ((i, j) ∈ isSimilar e1 e2 t ↔ (j, i) ∈ isSimilar e2 e1 t))) := by
  constructor
  · rw [bestMatching_isSome_iff, bestMatching_isSome_iff]
    constructor
    · rintro ⟨M, hM, hF⟩
      exact ⟨swapInv M, isMatching_swapInv hM, feasible_swapInv hF⟩
    · rintro ⟨M, hM, hF⟩
      exact ⟨swapInv M, isMatching_swapInv hM, feasible_swapInv hF⟩
  · intro L M hL hM
    obtain ⟨hLmatch, hLfeas, hLmin⟩ := bestMatching_props _ _ _ _ hL
    obtain ⟨hMmatch, hMfeas, hMmin⟩ := bestMatching_props _ _ _ _ hM
    have hcost1 : totCost e1.vecs e2.vecs L ≤ totCost e2.vecs e1.vecs M := by
      have hk := hLmin (swapInv M) (isMatching_swapInv hMmatch) (feasible_swapInv hMfeas)
      have hle := keyLE_cost_le hk
      rwa [totCost_swapInv] at hle
    have hcost2 : totCost e2.vecs e1.vecs M ≤ totCost e1.vecs e2.vecs L := by
      have hk := hMmin (swapInv L) (isMatching_swapInv hLmatch) (feasible_swapInv hLfeas)
      have hle := keyLE_cost_le hk
      rwa [totCost_swapInv] at hle
    have hcost := le_antisymm hcost1 hcost2
    refine ⟨hcost, ?_⟩
    intro huniq i j
    have hML : swapInv M = L := by
      refine huniq (swapInv M) (isMatching_swapInv hMmatch) (feasible_swapInv hMfeas) ?_
      rw [totCost_swapInv]
      exact hcost.symm
    have hMeq : M = swapInv L := by
      have hc := congrArg swapInv hML
      rwa [swapInv_swapInv hMmatch] at hc
    have hout1 : isSimilar e1 e2 t = L := by
      rw [isSimilar, hL, h1, h2]
      exact slotted_id L hLmatch
    have hout2 : isSimilar e2 e1 t = M := by
      rw [isSimilar, hM, h2, h1]
      exact slotted_id M hMmatch
    rw [hout1, hout2, hMeq]
    constructor
    · intro hij
      exact (swapInv_perm L).mem_iff.mpr (List.mem_map.mpr ⟨(i, j), hij, rfl⟩)
    · intro hji
      obtain ⟨q, hq, hs⟩ := List.mem_map.mp ((swapInv_perm L).mem_iff.mp hji)
      obtain ⟨q1, q2⟩ := q
      simp only [Prod.swap_prod_mk, Prod.mk.injEq] at hs
      obtain ⟨rfl, rfl⟩ := hs
      exact hq

/-- Witness for the amended C7 at the concrete pair `e1cex`, `e2cex`,
squared threshold 2. -/
theorem isSimilar_symm_C7_witness :
    ((bestMatching e1cex e2cex 2).isSome = true ↔
      (bestMatching e2cex e1cex 2).isSome = true) ∧
    (∀ L M, bestMatching e1cex e2cex 2 = some L → bestMatching e2cex e1cex 2 = some M →
      totCost e1cex.vecs e2cex.vecs L = totCost e2cex.vecs e1cex.vecs M ∧
      ((∀ M2, IsMatching e1cex.vecs.length e2cex.vecs.length M2 →
          Feasible e1cex.vecs e2cex.vecs 2 M2 →
          totCost e1cex.vecs e2cex.vecs M2 = totCost e1cex.vecs e2cex.vecs L → M2 = L) →
        ∀ i j, ((i, j) ∈ isSimilar e1cex e2cex 2 ↔ (j, i) ∈ isSimilar e2cex e1cex 2))) :=
  isSimilar_symm_C7 e1cex e2cex 2 (by decide) (by decide)

/-- One slot-label rewrite of the merge correspondence: a label that is a key
of the correspondence is replaced by its image, any other label is kept. -/
def mapSlot (C : List (Nat × Nat)) (s : Nat) : Nat :=
  match alookup C s with
  | some t2 => t2
  | none => s

/-- Modelled from the spec: the re-slot step of `EnvDisjointSet::merge`
(spec §4.3), whose body is absent from the sources.  Every slot label of the
environment is rewritten through the correspondence; the vectors themselves
are untouched. -/
def reSlot (C : List (Nat × Nat)) (e : Environment) : Environment :=
  { e with vec_ind := e.vec_ind.map (mapSlot C) }

/-- Modelled from the spec (spec §3): the `EnvDisjointSet` state with the
spec's `parentIndex` array made explicit (the header declares only the node
vector `s` and `rank`; the parent bookkeeping lives in the missing
translation unit).  Arrays are embedded as functions read at indices below
`n`. -/
structure EnvDisjointSet where
  n : Nat
  s : Nat → Environment
  parent : Nat → Nat
  rank : Nat → Nat
  m_num_neigh : Nat

/-- Modelled from the spec: a freshly constructed forest — every node is its
own root with rank 0; the node environments are supplied by the caller
(`MatchEnv::cluster` assigns one built environment per particle). -/
def mkEnvDisjointSet (num_neigh Np : Nat) (envs : Nat → Environment) : EnvDisjointSet :=
  ⟨Np, envs, id, fun _ => 0, num_neigh⟩

/-- Fuel-bounded walk to the root along parent pointers. -/
def findAux (p : Nat → Nat) : Nat → Nat → Nat
  | 0, x => x
  | fuel + 1, x => if p x = x then x else findAux p fuel (p x)

/-- Modelled from the spec: `EnvDisjointSet::find` (spec §4.3), whose body is
absent from the sources — the walk to the root of `x`'s tree.  The fuel `n`
covers every acyclic parent chain over `n` nodes. -/
def EnvDisjointSet.find (ds : EnvDisjointSet) (x : Nat) : Nat :=
  findAux ds.parent ds.n x

/-- Modelled from the spec: `EnvDisjointSet::merge` (spec §4.3), whose body
is absent from the sources.  If the two roots agree this is a no-op;
otherwise the lower-rank root is attached under the higher-rank root (on
rank ties `b`'s root is attached under `a`'s root and the winner's rank is
incremented, the customary union-by-rank bookkeeping), and every environment
of the reparented subtree is re-slotted through the correspondence before
attaching.  Out-of-bounds arguments (undefined behavior in the C++) leave
the forest unchanged. -/
def EnvDisjointSet.merge (ds : EnvDisjointSet) (a b : Nat) (C : List (Nat × Nat)) :
    EnvDisjointSet :=
  if a < ds.n ∧ b < ds.n then
    if ds.find a = ds.find b then ds
    else
      EnvDisjointSet.mk ds.n
        (fun x =>
          if x < ds.n ∧ ds.find x =
              (if ds.rank (ds.find a) < ds.rank (ds.find b) then ds.find a else ds.find b)
          then reSlot C (ds.s x) else ds.s x)
        (fun x =>
          if x = (if ds.rank (ds.find a) < ds.rank (ds.find b) then ds.find a else ds.find b)
          then (if ds.rank (ds.find a) < ds.rank (ds.find b) then ds.find b else ds.find a)
          else ds.parent x)
        (if ds.rank (ds.find a) = ds.rank (ds.find b) then
          (fun x => if x = ds.find a then ds.rank x + 1 else ds.rank x)
        else ds.rank)
        ds.m_num_neigh
  else ds

/-- The forest states reachable from a fresh forest by merges. -/
inductive DSReachable : EnvDisjointSet → Prop
  | init (num_neigh Np : Nat) (envs : Nat → Environment) :
      DSReachable (mkEnvDisjointSet num_neigh Np envs)
  | step (ds : EnvDisjointSet) (a b : Nat) (C : List (Nat × Nat)) :
      DSReachable ds → DSReachable (ds.merge a b C)

/-- The forest invariant: parents stay in bounds and every node reaches a
fixpoint of the parent map within fewer than `n` steps. -/
def DSInv (ds : EnvDisjointSet) : Prop :=
  ∀ x, x < ds.n → ds.parent x < ds.n ∧
    ∃ k, k < ds.n ∧ ds.parent (ds.parent^[k] x) = ds.parent^[k] x

theorem findAux_iterate (p : Nat → Nat) :
    ∀ (fuel x : Nat), ∃ m, m ≤ fuel ∧ findAux p fuel x = p^[m] x := by
  intro fuel
  induction fuel with
  | zero => intro x; exact ⟨0, Nat.le_refl 0, rfl⟩
  | succ fuel ih =>
    intro x
    by_cases hx : p x = x
    · exact ⟨0, Nat.zero_le _, by simp [findAux, hx]⟩
    · obtain ⟨m, hm, he⟩ := ih (p x)
      refine ⟨m + 1, Nat.succ_le_succ hm, ?_⟩
      rw [findAux, if_neg hx, he, Function.iterate_succ_apply]

theorem findAux_root (p : Nat → Nat) :
    ∀ (fuel x k : Nat), k ≤ fuel → p (p^[k] x) = p^[k] x →
      p (findAux p fuel x) = findAux p fuel x := by
  intro fuel
  induction fuel with
  | zero =>
    intro x k hk hroot
    have : k = 0 := Nat.le_zero.mp hk
    subst this
    simpa using hroot
  | succ fuel ih =>
    intro x k hk hroot
    by_cases hx : p x = x
    · simp [findAux, hx]
    · rw [findAux, if_neg hx]
      cases k with
      | zero => exact absurd (by simpa using hroot) hx
      | succ k =>
        rw [Function.iterate_succ_apply] at hroot
        exact ih (p x) k (Nat.le_of_succ_le_succ hk) hroot

theorem findAux_lt (p : Nat → Nat) (n : Nat) (hp : ∀ x, x < n → p x < n) :
    ∀ (fuel x : Nat), x < n → findAux p fuel x < n := by
  intro fuel
  induction fuel with
  | zero => intro x hx; exact hx
  | succ fuel ih =>
    intro x hx
    by_cases hxx : p x = x
    · simpa [findAux, hxx] using hx
    · rw [findAux, if_neg hxx]
      exact ih (p x) (hp x hx)

theorem iterate_lt (p : Nat → Nat) (n : Nat) (hp : ∀ x, x < n → p x < n) :
    ∀ (k x : Nat), x < n → p^[k] x < n := by
  intro k
  induction k with
  | zero => intro x hx; exact hx
  | succ k ih =>
    intro x hx
    rw [Function.iterate_succ_apply]
    exact ih (p x) (hp x hx)

theorem find_root_of_inv (ds : EnvDisjointSet) (h : DSInv ds) (x : Nat) (hx : x < ds.n) :
    ds.find x < ds.n ∧ ds.parent (ds.find x) = ds.find x := by
  obtain ⟨k, hk, hroot⟩ := (h x hx).2
  constructor
  · exact findAux_lt ds.parent ds.n (fun y hy => (h y hy).1) ds.n x hx
  · exact findAux_root ds.parent ds.n x k (Nat.le_of_lt hk) hroot

theorem iterate_congr_of_ne (p : Nat → Nat) (L W x : Nat) :
    ∀ j, (∀ i, i < j → p^[i] x ≠ L) →
      (fun y => if y = L then W else p y)^[j] x = p^[j] x := by
  intro j
  induction j with
  | zero => simp
  | succ j ih =>
    intro hne
    rw [Function.iterate_succ_apply', Function.iterate_succ_apply',
      ih (fun i hi => hne i (Nat.lt_succ_of_lt hi))]
    have hj := hne j (Nat.lt_succ_self j)
    simp [hj]

theorem DSInv_init (num_neigh Np : Nat) (envs : Nat → Environment) :
    DSInv (mkEnvDisjointSet num_neigh Np envs) := by
  intro x hx
  refine ⟨hx, 0, by omega, by simp [mkEnvDisjointSet]⟩

theorem DSInv_merge (ds : EnvDisjointSet) (a b : Nat) (C : List (Nat × Nat))
    (h : DSInv ds) : DSInv (ds.merge a b C) := by
  rw [EnvDisjointSet.merge]
  by_cases hab : a < ds.n ∧ b < ds.n
  · rw [if_pos hab]
    by_cases hfind : ds.find a = ds.find b
    · rw [if_pos hfind]
      exact h
    · rw [if_neg hfind]
      obtain ⟨hralt, hraroot⟩ := find_root_of_inv ds h a hab.1
      obtain ⟨hrblt, hrbroot⟩ := find_root_of_inv ds h b hab.2
      set L := if ds.rank (ds.find a) < ds.rank (ds.find b) then ds.find a else ds.find b
        with hLdef
      set W := if ds.rank (ds.find a) < ds.rank (ds.find b) then ds.find b else ds.find a
        with hWdef
      have hLprop : L = ds.find a ∨ L = ds.find b := by
        rw [hLdef]
        split_ifs <;> simp
      have hWprop : W = ds.find a ∨ W = ds.find b := by
        rw [hWdef]
        split_ifs <;> simp
      have hLW : L ≠ W := by
        rw [hLdef, hWdef]
        split_ifs <;> [exact hfind; exact Ne.symm hfind]
      have hLlt : L < ds.n := by rcases hLprop with he | he <;> rw [he] <;> assumption
      have hWlt : W < ds.n := by rcases hWprop with he | he <;> rw [he] <;> assumption
      have hLroot : ds.parent L = L := by rcases hLprop with he | he <;> rw [he] <;> assumption
      have hWroot : ds.parent W = W := by rcases hWprop with he | he <;> rw [he] <;> assumption
      intro x hx
      refine ⟨?_, ?_⟩
      · show (if x = L then W else ds.parent x) < ds.n
        by_cases hxL : x = L
        · rw [if_pos hxL]
          exact hWlt
        · rw [if_neg hxL]
          exact (h x hx).1
      · show ∃ k, k < ds.n ∧
          (fun y => if y = L then W else ds.parent y)
              ((fun y => if y = L then W else ds.parent y)^[k] x) =
            (fun y => if y = L then W else ds.parent y)^[k] x
        obtain ⟨kb, hkb, hkbroot⟩ := (h x hx).2
        have hex : ∃ k, ds.parent (ds.parent^[k] x) = ds.parent^[k] x := ⟨kb, hkbroot⟩
        set k0 := Nat.find hex with hk0def
        have hk0root : ds.parent (ds.parent^[k0] x) = ds.parent^[k0] x := Nat.find_spec hex
        have hk0min : ∀ m, m < k0 → ¬ ds.parent (ds.parent^[m] x) = ds.parent^[m] x :=
          fun m hm => Nat.find_min hex hm
        have hk0lt : k0 < ds.n := lt_of_le_of_lt (Nat.find_min' hex hkbroot) hkb
        have hroot_index : ∀ i, i ≤ k0 → ds.parent (ds.parent^[i] x) = ds.parent^[i] x →
            i = k0 := by
          intro i hi hPi
          by_contra hne
          exact hk0min i (by omega) hPi
        have hdist : ∀ i j, i < j → j ≤ k0 → ds.parent^[i] x ≠ ds.parent^[j] x := by
          intro i j hij hj heq
          have h2 : ds.parent^[k0 - j + i] x = ds.parent^[k0] x := by
            rw [Function.iterate_add_apply, heq, ← Function.iterate_add_apply]
            have e1 : k0 - j + j = k0 := by omega
            rw [e1]
          have hP : ds.parent (ds.parent^[k0 - j + i] x) = ds.parent^[k0 - j + i] x := by
            rw [h2]
            exact hk0root
          exact hk0min (k0 - j + i) (by omega) hP
        by_cases hcase : ds.parent^[k0] x = L
        · have hnol : ∀ i, i < k0 → ds.parent^[i] x ≠ L := by
            intro i hi heqi
            have hPi : ds.parent (ds.parent^[i] x) = ds.parent^[i] x := by
              rw [heqi]
              exact hLroot
            exact hk0min i hi hPi
          have hcong := iterate_congr_of_ne ds.parent L W x k0 hnol
          have hbound : k0 + 1 < ds.n := by
            have hinj : Set.InjOn (fun i => ds.parent^[i] x) ↑(Finset.range (k0 + 1)) := by
              intro i hi j hj hijeq
              simp only [Finset.coe_range, Set.mem_Iio] at hi hj
              by_contra hne
              rcases Nat.lt_or_ge i j with hlt | hge
              · exact hdist i j hlt (by omega) hijeq
              · have hlt : j < i := by omega
                exact hdist j i hlt (by omega) hijeq.symm
            have hcard : ((Finset.range (k0 + 1)).image (fun i => ds.parent^[i] x)).card
                = k0 + 1 := by
              rw [Finset.card_image_of_injOn hinj, Finset.card_range]
            have hWnot : W ∉ (Finset.range (k0 + 1)).image (fun i => ds.parent^[i] x) := by
              intro hmem
              obtain ⟨i, hi, hieq⟩ := Finset.mem_image.mp hmem
              have hi' : i ≤ k0 := by
                have := Finset.mem_range.mp hi
                omega
              have hPi : ds.parent (ds.parent^[i] x) = ds.parent^[i] x := by
                rw [hieq]
                exact hWroot
              have : i = k0 := hroot_index i hi' hPi
              subst this
              exact hLW (by rw [← hieq, hcase])
            have hsub : insert W ((Finset.range (k0 + 1)).image (fun i => ds.parent^[i] x))
                ⊆ Finset.range ds.n := by
              intro y hy
              rcases Finset.mem_insert.mp hy with rfl | hy'
              · exact Finset.mem_range.mpr hWlt
              · obtain ⟨i, -, hieq⟩ := Finset.mem_image.mp hy'
                refine Finset.mem_range.mpr ?_
                rw [← hieq]
                exact iterate_lt ds.parent ds.n (fun y hy => (h y hy).1) i x hx
            have hle := Finset.card_le_card hsub
            rw [Finset.card_insert_of_not_mem hWnot, hcard, Finset.card_range] at hle
            omega
          refine ⟨k0 + 1, hbound, ?_⟩
          have hstep : (fun y => if y = L then W else ds.parent y)^[k0 + 1] x = W := by
            rw [Function.iterate_succ_apply', hcong, hcase]
            simp
          rw [hstep]
          show (if W = L then W else ds.parent W) = W
          rw [if_neg (Ne.symm hLW)]
          exact hWroot
        · have hnol : ∀ i, i ≤ k0 → ds.parent^[i] x ≠ L := by
            intro i hi heqi
            have hPi : ds.parent (ds.parent^[i] x) = ds.parent^[i] x := by
              rw [heqi]
              exact hLroot
            have : i = k0 := hroot_index i hi hPi
            subst this
            exact hcase heqi
          have hcong := iterate_congr_of_ne ds.parent L W x k0
            (fun i hi => hnol i (Nat.le_of_lt hi))
          refine ⟨k0, hk0lt, ?_⟩
          rw [hcong]
          have := hnol k0 (Nat.le_refl k0)
          simp [this, hk0root]
  · rw [if_neg hab]
    exact h

theorem DSInv_reachable (ds : EnvDisjointSet) (h : DSReachable ds) : DSInv ds := by
  induction h with
  | init num_neigh Np envs => exact DSInv_init num_neigh Np envs
  | step ds a b C _ ih => exact DSInv_merge ds a b C ih

/-- C6: on every forest state reachable from a fresh `EnvDisjointSet` by any
sequence of merges, `find` applied to any in-bounds node terminates at (the
fuel-bounded walk reaches) a root inside the node array: the result is below
`n` and is a fixpoint of the parent map. -/
theorem find_terminates_C6 (ds : EnvDisjointSet) (h : DSReachable ds) (x : Nat)
    (hx : x < ds.n) :
    ds.find x < ds.n ∧ ds.parent (ds.find x) = ds.find x :=
  find_root_of_inv ds (DSInv_reachable ds h) x hx

/-- Witness for C6: a two-node forest after one merge; node 1 resolves to an
in-bounds root. -/
theorem find_terminates_C6_witness :
    ((mkEnvDisjointSet 3 2 (fun _ => mkEnvironment 3)).merge 0 1 []).find 1 <
        ((mkEnvDisjointSet 3 2 (fun _ => mkEnvironment 3)).merge 0 1 []).n ∧
      ((mkEnvDisjointSet 3 2 (fun _ => mkEnvironment 3)).merge 0 1 []).parent
          (((mkEnvDisjointSet 3 2 (fun _ => mkEnvironment 3)).merge 0 1 []).find 1) =
        ((mkEnvDisjointSet 3 2 (fun _ => mkEnvironment 3)).merge 0 1 []).find 1 :=
  find_terminates_C6 _
    (DSReachable.step (mkEnvDisjointSet 3 2 (fun _ => mkEnvironment 3)) 0 1 []
      (DSReachable.init 3 2 (fun _ => mkEnvironment 3))) 1 (by decide)

/-- C3: `merge(a, b, C)` is a no-op when the two roots agree; otherwise the
lower-rank root is attached under the higher-rank root (ties attach `b`'s
root under `a`'s), every node of the reparented subtree has each slot label
that is a key of `C` rewritten to its image and every other slot label kept,
with all vector values untouched, and nodes outside that subtree are
untouched. -/
theorem merge_spec_C3 (ds : EnvDisjointSet) (a b : Nat) (C : List (Nat × Nat)) :
    (ds.find a = ds.find b → ds.merge a b C = ds) ∧
    (a < ds.n → b < ds.n → ds.find a ≠ ds.find b →
      ((ds.rank (ds.find a) < ds.rank (ds.find b) →
          (ds.merge a b C).parent (ds.find a) = ds.find b ∧
          ∀ x, x ≠ ds.find a → (ds.merge a b C).parent x = ds.parent x) ∧
       (ds.rank (ds.find b) ≤ ds.rank (ds.find a) →
          (ds.merge a b C).parent (ds.find b) = ds.find a ∧
          ∀ x, x ≠ ds.find b → (ds.merge a b C).parent x = ds.parent x) ∧
       (∀ x, x < ds.n →
          ds.find x =
            (if ds.rank (ds.find a) < ds.rank (ds.find b) then ds.find a else ds.find b) →
          ((ds.merge a b C).s x).vecs = (ds.s x).vecs ∧
          ((ds.merge a b C).s x).vec_ind = (ds.s x).vec_ind.map (fun s2 =>
            match alookup C s2 with
            | some t2 => t2
            | none => s2)) ∧
       (∀ x, x < ds.n →
          ds.find x ≠
            (if ds.rank (ds.find a) < ds.rank (ds.find b) then ds.find a else ds.find b) →
          (ds.merge a b C).s x = ds.s x))) := by
  constructor
  · intro hfind
    rw [EnvDisjointSet.merge]
    by_cases hab : a < ds.n ∧ b < ds.n
    · rw [if_pos hab, if_pos hfind]
    · rw [if_neg hab]
  · intro ha hb hfind
    have hparent : (ds.merge a b C).parent = fun x =>
        if x = (if ds.rank (ds.find a) < ds.rank (ds.find b) then ds.find a else ds.find b)
        then (if ds.rank (ds.find a) < ds.rank (ds.find b) then ds.find b else ds.find a)
        else ds.parent x := by
      rw [EnvDisjointSet.merge, if_pos ⟨ha, hb⟩, if_neg hfind]
    have hs : (ds.merge a b C).s = fun x =>
        if x < ds.n ∧ ds.find x =
            (if ds.rank (ds.find a) < ds.rank (ds.find b) then ds.find a else ds.find b)
        then reSlot C (ds.s x) else ds.s x := by
      rw [EnvDisjointSet.merge, if_pos ⟨ha, hb⟩, if_neg hfind]
    refine ⟨?_, ?_, ?_, ?_⟩
    · intro hrank
      constructor
      · rw [hparent]
        simp [hrank]
      · intro x hxa
        rw [hparent]
        simp [hrank, hxa]
    · intro hrank
      have hnlt : ¬ ds.rank (ds.find a) < ds.rank (ds.find b) := by omega
      constructor
      · rw [hparent]
        simp [hnlt]
      · intro x hxb
        rw [hparent]
        simp [hnlt, hxb]
    · intro x hx hfx
      rw [hs]
      simp only [hfx, hx, and_self, if_true, if_pos]
      exact ⟨rfl, rfl⟩
    · intro x hx hfx
      rw [hs]
      simp [hfx]

/-- A concrete fresh two-node forest used by the C3 witness. -/
def wDS : EnvDisjointSet :=
  mkEnvDisjointSet 2 2 (fun _ => ⟨0, [⟨1, 0, 0⟩], false, 1, 2, [0]⟩)

/-- Witness for C3: merging the two fresh roots (equal ranks, so `b`'s root
goes under `a`'s) reparents node 1 and rewrites its slot 0 through the
correspondence `{0 ↦ 1}`. -/
theorem merge_spec_C3_witness :
    (wDS.merge 0 1 [(0, 1)]).parent (wDS.find 1) = wDS.find 0 ∧
    ((wDS.merge 0 1 [(0, 1)]).s 1).vec_ind = (wDS.s 1).vec_ind.map (fun s2 =>
      match alookup [(0, 1)] s2 with
      | some t2 => t2
      | none => s2) := by
  have h := merge_spec_C3 wDS 0 1 [(0, 1)]
  obtain ⟨-, h2⟩ := h
  obtain ⟨-, hle, hsub, -⟩ := h2 (by decide) (by decide) (by decide)
  exact ⟨(hle (by decide)).1, (hsub 1 (by decide) (by decide)).2⟩

/-- The per-particle roots of the forest, in particle-index order. -/
def rootsList (ds : EnvDisjointSet) : List Nat :=
  (List.range ds.n).map ds.find

/-- Deduplication keeping the first occurrence of each value, in order of
first appearance — the order in which `populateEnv` hands out dense labels. -/
def firstDedup : List Nat → List Nat
  | [] => []
  | x :: xs => x :: firstDedup (xs.filter (fun z => z ≠ x))
termination_by l => l.length
decreasing_by
  simp only [List.length_cons]
  exact Nat.lt_succ_of_le (List.length_filter_le _ _)

/-- One step of the relabeling loop of `MatchEnv::populateEnv`: look the
root up in the label dictionary; a known root reuses its dense label, an
unknown root is assigned the next fresh label. -/
def populateStep (st : List (Nat × Nat) × Nat × List Nat) (r : Nat) :
    List (Nat × Nat) × Nat × List Nat :=
  match alookup st.1 r with
  | some lab => (st.1, st.2.1, st.2.2 ++ [lab])
  | none => (st.1 ++ [(r, st.2.1)], st.2.1 + 1, st.2.2 ++ [st.2.1])

/-- Modelled from the spec: `MatchEnv::populateEnv` (spec §4.4 step 3),
whose body is absent from the sources — walk the particles in index order,
assign each root a dense label at its first appearance, and record every
particle's label.  Returns the per-particle label array (`m_env_index`) and
the cluster count (`m_num_clusters`). -/
def populateEnv (ds : EnvDisjointSet) : List Nat × Nat :=
  (((rootsList ds).foldl populateStep ([], 0, [])).2.2,
    ((rootsList ds).foldl populateStep ([], 0, [])).2.1)

/-- `MatchEnv::getClusters` (in source, `MatchEnv.h` lines 127-130): the
per-particle cluster label array recorded by `populateEnv`. -/
def getClusters (ds : EnvDisjointSet) : List Nat :=
  (populateEnv ds).1

/-- `MatchEnv::getNumClusters` (in source, `MatchEnv.h` lines 159-162): the
recorded cluster count. -/
def getNumClusters (ds : EnvDisjointSet) : Nat :=
  (populateEnv ds).2

theorem mem_firstDedup (y : Nat) : ∀ (l : List Nat), y ∈ firstDedup l ↔ y ∈ l := by
  intro l
  induction l using firstDedup.induct with
  | case1 => simp [firstDedup]
  | case2 x xs ih =>
    rw [firstDedup]
    by_cases hyx : y = x
    · subst hyx
      simp
    · simp only [List.mem_cons, hyx, false_or, ih, List.mem_filter]
      constructor
      · rintro ⟨h, -⟩
        exact h
      · intro h
        exact ⟨h, by simpa using hyx⟩

theorem nodup_firstDedup : ∀ (l : List Nat), (firstDedup l).Nodup := by
  intro l
  induction l using firstDedup.induct with
  | case1 => simp [firstDedup]
  | case2 x xs ih =>
    rw [firstDedup]
    refine List.nodup_cons.mpr ⟨?_, ih⟩
    intro hx
    have := (mem_firstDedup x _).mp hx
    simp [List.mem_filter] at this

theorem firstDedup_append (l : List Nat) (r : Nat) :
    firstDedup (l ++ [r]) = firstDedup l ++ (if r ∈ l then [] else [r]) := by
  induction l using firstDedup.induct with
  | case1 => simp [firstDedup]
  | case2 x xs ih =>
    have hcons : (x :: xs) ++ [r] = x :: (xs ++ [r]) := rfl
    rw [hcons, firstDedup, List.filter_append]
    by_cases hrx : r = x
    · subst hrx
      have hfr : [r].filter (fun z => z ≠ r) = [] := by simp
      rw [hfr, List.append_nil, if_pos (List.mem_cons_self r xs), List.append_nil]
      conv_rhs => rw [firstDedup]
    · have hfr : [r].filter (fun z => z ≠ x) = [r] := by simp [hrx]
      rw [hfr, ih]
      conv_rhs => rw [firstDedup]
      have hmemf : r ∈ xs.filter (fun z => z ≠ x) ↔ r ∈ xs := by
        simp [List.mem_filter, hrx]
      by_cases hrxs : r ∈ xs
      · rw [if_pos (hmemf.mpr hrxs), if_pos (by simp [hrxs]), List.append_nil,
          List.append_nil]
      · rw [if_neg (fun h => hrxs (hmemf.mp h)), if_neg (by simp [hrxs, hrx]),
          List.cons_append]

theorem indexOf_append_not_mem (a : Nat) (l1 l2 : List Nat) (h : a ∉ l1) :
    List.indexOf a (l1 ++ l2) = l1.length + List.indexOf a l2 := by
  induction l1 with
  | nil => simp
  | cons b l1 ih =>
    have hba : b ≠ a := fun he => h (by simp [he])
    have hal1 : a ∉ l1 := fun he => h (by simp [he])
    rw [List.cons_append, List.indexOf_cons_ne _ hba, ih hal1, List.length_cons]
    omega

theorem alookup_zip_range (D : List Nat) :
    ∀ (s r : Nat), alookup (D.zip (List.range' s D.length)) r =
      if r ∈ D then some (s + List.indexOf r D) else none := by
  induction D with
  | nil => intro s r; simp [alookup]
  | cons d D' ih =>
    intro s r
    rw [List.length_cons, List.range'_succ, List.zip_cons_cons, alookup]
    by_cases hdr : d = r
    · subst hdr
      simp [List.indexOf_cons_self]
    · rw [if_neg hdr, ih (s + 1) r]
      by_cases hr : r ∈ D'
      · rw [if_pos hr, if_pos (by simp [hr]), List.indexOf_cons_ne _ hdr]
        congr 1
        omega
      · rw [if_neg hr, if_neg (by simp [hr, Ne.symm hdr])]

theorem populateStep_triple (assoc : List (Nat × Nat)) (next : Nat) (labels : List Nat)
    (r : Nat) :
    populateStep (assoc, next, labels) r =
      match alookup assoc r with
      | some lab => (assoc, next, labels ++ [lab])
      | none => (assoc ++ [(r, next)], next + 1, labels ++ [next]) := rfl

theorem populate_foldl (roots : List Nat) :
    roots.foldl populateStep ([], 0, []) =
      ((firstDedup roots).zip (List.range' 0 (firstDedup roots).length),
        (firstDedup roots).length,
        roots.map (fun r => List.indexOf r (firstDedup roots))) := by
  induction roots using List.reverseRecOn with
  | nil => simp [firstDedup]
  | append_singleton roots r ih =>
    rw [List.foldl_append, ih, List.foldl_cons, List.foldl_nil, populateStep_triple,
      alookup_zip_range]
    by_cases hr : r ∈ firstDedup roots
    · have hmem : r ∈ roots := (mem_firstDedup r roots).mp hr
      rw [if_pos hr]
      have hD : firstDedup (roots ++ [r]) = firstDedup roots := by
        rw [firstDedup_append, if_pos hmem, List.append_nil]
      show ((firstDedup roots).zip (List.range' 0 (firstDedup roots).length),
          (firstDedup roots).length,
          roots.map (fun r' => List.indexOf r' (firstDedup roots)) ++
            [0 + List.indexOf r (firstDedup roots)]) = _
      rw [hD, List.map_append]
      simp
    · have hmem : r ∉ roots := fun hm => hr ((mem_firstDedup r roots).mpr hm)
      rw [if_neg hr]
      have hD : firstDedup (roots ++ [r]) = firstDedup roots ++ [r] := by
        rw [firstDedup_append, if_neg hmem]
      show ((firstDedup roots).zip (List.range' 0 (firstDedup roots).length) ++
            [(r, (firstDedup roots).length)],
          (firstDedup roots).length + 1,
          roots.map (fun r' => List.indexOf r' (firstDedup roots)) ++
            [(firstDedup roots).length]) = _
      rw [hD, List.map_append]
      have hlen : (firstDedup roots ++ [r]).length = (firstDedup roots).length + 1 := by
        simp
      have hziplen : (firstDedup roots).length =
          (List.range' 0 (firstDedup roots).length).length := by
        rw [List.length_range']
      rw [hlen, List.range'_1_concat, List.zip_append hziplen]
      have hmapeq : List.map (fun r1 => List.indexOf r1 (firstDedup roots ++ [r])) roots =
          List.map (fun r1 => List.indexOf r1 (firstDedup roots)) roots :=
        List.map_congr_left (fun r' hr' =>
          List.indexOf_append_of_mem ((mem_firstDedup r' roots).mpr hr'))
      have hlast : List.indexOf r (firstDedup roots ++ [r]) = (firstDedup roots).length := by
        rw [indexOf_append_not_mem r _ _ hr, List.indexOf_cons_self]
        omega
      rw [hmapeq]
      simp [hlast, List.zip_cons_cons]

/-- C4: after renumbering, the per-particle label array has one entry per
particle; particle `i` carries the dense label of its root, namely the
first-appearance index of `find i` among the roots scanned in particle
order; the recorded cluster count is the number of those first appearances;
every label is below the count; and the number of distinct labels equals the
recorded count. -/
theorem populateEnv_spec_C4 (ds : EnvDisjointSet) :
    (getClusters ds).length = ds.n ∧
    (∀ i, i < ds.n → (getClusters ds).getD i 0 =
      List.indexOf (ds.find i) (firstDedup (rootsList ds))) ∧
    getNumClusters ds = (firstDedup (rootsList ds)).length ∧
    (∀ i, i < ds.n → (getClusters ds).getD i 0 < getNumClusters ds) ∧
    (getClusters ds).toFinset.card = getNumClusters ds := by
  have hclusters : getClusters ds =
      (rootsList ds).map (fun r => List.indexOf r (firstDedup (rootsList ds))) := by
    rw [getClusters, populateEnv, populate_foldl]
  have hnum : getNumClusters ds = (firstDedup (rootsList ds)).length := by
    rw [getNumClusters, populateEnv, populate_foldl]
  have hrootlen : (rootsList ds).length = ds.n := by
    rw [rootsList, List.length_map, List.length_range]
  have hlen : (getClusters ds).length = ds.n := by
    rw [hclusters, List.length_map, hrootlen]
  have hget : ∀ i, i < ds.n → (getClusters ds).getD i 0 =
      List.indexOf (ds.find i) (firstDedup (rootsList ds)) := by
    intro i hi
    have hi' : i < (getClusters ds).length := by rw [hlen]; exact hi
    have hroot_i : i < (rootsList ds).length := by rw [hrootlen]; exact hi
    rw [List.getD, List.get?_eq_get hi', Option.getD_some]
    show (getClusters ds).get ⟨i, hi'⟩ = _
    have : (getClusters ds).get ⟨i, hi'⟩ =
        List.indexOf ((rootsList ds).get ⟨i, hroot_i⟩) (firstDedup (rootsList ds)) := by
      simp [hclusters]
    rw [this]
    congr 1
    simp [rootsList]
  have hmemroot : ∀ i, i < ds.n → ds.find i ∈ rootsList ds := by
    intro i hi
    rw [rootsList]
    exact List.mem_map.mpr ⟨i, List.mem_range.mpr hi, rfl⟩
  refine ⟨hlen, hget, hnum, ?_, ?_⟩
  · intro i hi
    rw [hget i hi, hnum]
    exact List.indexOf_lt_length.mpr
      ((mem_firstDedup _ _).mpr (hmemroot i hi))
  · have hset : (getClusters ds).toFinset =
        Finset.range (firstDedup (rootsList ds)).length := by
      ext k
      simp only [List.mem_toFinset, Finset.mem_range, hclusters, List.mem_map]
      constructor
      · rintro ⟨r, hr, rfl⟩
        exact List.indexOf_lt_length.mpr ((mem_firstDedup _ _).mpr hr)
      · intro hk
        refine ⟨(firstDedup (rootsList ds)).get ⟨k, hk⟩, ?_, ?_⟩
        · exact (mem_firstDedup _ _).mp (List.get_mem _ _ hk)
        · exact List.indexOf_getElem (nodup_firstDedup _) k hk
    rw [hset, Finset.card_range, hnum]

/-- Witness for C4 on a concrete merged two-node forest: particle 0 carries
the first-appearance index of its root and particle 1's label is below the
cluster count. -/
theorem populateEnv_spec_C4_witness :
    (getClusters (wDS.merge 0 1 [])).getD 0 0 =
      List.indexOf ((wDS.merge 0 1 []).find 0) (firstDedup (rootsList (wDS.merge 0 1 []))) ∧
    (getClusters (wDS.merge 0 1 [])).getD 1 0 < getNumClusters (wDS.merge 0 1 []) := by
  have h := populateEnv_spec_C4 (wDS.merge 0 1 [])
  exact ⟨h.2.1 0 (by decide), h.2.2.2.1 1 (by decide)⟩
